import Mathlib

/-!
Verification of the PTF document-review application (src/app.py).

The text-processing core of the application is embedded shallowly: Python
strings are modelled as Lean String / List Char, and each Python function
is translated into an executable Lean definition carrying the same name.
Helper functions model the Python string primitives the source relies on
(split, strip, startswith, substring search, the two regex substitutions
and json.loads).
-/

namespace PTF

/-! ## Basic string helpers -/

/-- Concatenation of a list of character lists (Python "".join applied to
string pieces). -/
def joinL : List (List Char) → List Char
  | [] => []
  | x :: xs => x ++ joinL xs

/-- Model of the Python call text.split(sep) for the fixed separator \n :
the list of lines of a character list, with empty parts preserved. -/
def splitLines : List Char → List (List Char)
  | [] => [[]]
  | c :: cs =>
    if c = '\n' then [] :: splitLines cs
    else
      match splitLines cs with
      | l :: ls => (c :: l) :: ls
      | [] => [[c]]

/-- ASCII whitespace, as stripped by Python str.strip and matched by the
regex class backslash-s on the inputs this source handles. -/
def isSpaceC (c : Char) : Bool :=
  c = ' ' || c = '\t' || c = '\n' || c = '\r' || c = '\x0b' || c = '\x0c'

/-- Python str.lstrip(). -/
def lstripL (l : List Char) : List Char := l.dropWhile isSpaceC

/-- Python str.rstrip(). -/
def rstripL (l : List Char) : List Char := (l.reverse.dropWhile isSpaceC).reverse

/-- Python str.strip(). -/
def stripL (l : List Char) : List Char := lstripL (rstripL l)

/-- Python str.rstrip(",") : remove every trailing comma. -/
def rstripCommaL (l : List Char) : List Char :=
  (l.reverse.dropWhile (fun c => c = ',')).reverse

/-- Bool test that pat is a leading segment of l (Python str.startswith). -/
def startsWithL : List Char → List Char → Bool
  | [], _ => true
  | _ :: _, [] => false
  | p :: ps, c :: cs => p = c && startsWithL ps cs

/-- Bool test that pat occurs contiguously somewhere in the second list
(Python operator in). -/
def containsL (pat : List Char) : List Char → Bool
  | [] => startsWithL pat []
  | c :: cs => startsWithL pat (c :: cs) || containsL pat cs

/-- True when every character is whitespace. -/
def allSpace (l : List Char) : Bool := l.all isSpaceC

/-! ## Chunker (source lines 52-66) -/

/-- Source lines 52-66, split_text_into_chunks: the greedy accumulator loop.
The first argument mirrors max_chars, the second the remaining lines of
paragraphs = text.split(newline), the third the running current_chunk. -/
def split_chunks_go (max_chars : Nat) : List (List Char) → List Char → List (List Char)
  | [], cur => if cur = [] then [] else [cur]
  | p :: ps, cur =>
    if cur.length + p.length < max_chars then
      split_chunks_go max_chars ps (cur ++ p ++ ['\n'])
    else
      cur :: split_chunks_go max_chars ps (p ++ ['\n'])

/-- Source lines 52-66: split_text_into_chunks(text, max_chars). -/
def split_text_into_chunks (text : String) (max_chars : Nat) : List String :=
  (split_chunks_go max_chars (splitLines text.data) []).map String.mk

/-! ## JSON repair (source lines 68-79) -/

/-- Model of re.sub on source line 72: delete a json code fence followed by
any run of whitespace wherever it occurs, or a bare fence followed only by
whitespace at the end of the string. The scan is leftmost with the first
alternative preferred, continuing after each deleted match. Fuel bounds the
recursion and is instantiated with the input length, which suffices because
every step consumes at least one character. -/
def dropFenceF : Nat → List Char → List Char
  | 0, l => l
  | _ + 1, [] => []
  | fuel + 1, c :: cs =>
    if startsWithL "```json".data (c :: cs) then
      dropFenceF fuel (((c :: cs).drop 7).dropWhile isSpaceC)
    else if startsWithL "```".data (c :: cs) && allSpace ((c :: cs).drop 3) then
      []
    else
      c :: dropFenceF fuel cs

/-- Fence removal at the input length fuel. -/
def dropFence (l : List Char) : List Char := dropFenceF l.length l

/-- Source lines 74-78, the closing half of repair_json: drop trailing commas
and whitespace, close an odd quote, close an open brace, and append the
closing bracket. -/
def close_json (s : List Char) : List Char :=
  let t0 := rstripL (rstripCommaL s)
  let t1 := if t0.count '"' % 2 = 1 then t0 ++ ['"'] else t0
  let t2 := if t1.count '}' < t1.count '{' then t1 ++ ['}'] else t1
  t2 ++ [']']

/-- Source lines 68-79, repair_json on the character-list level: strip, remove
markdown fences, and when the result does not already end with a closing
bracket, apply the closing half. -/
def repair_json_l (l : List Char) : List Char :=
  let s := stripL (dropFence (stripL l))
  if s.getLast? = some ']' then s else close_json s

/-- Source lines 68-79: repair_json. -/
def repair_json (s : String) : String := String.mk (repair_json_l s.data)

/-! ## Marker removal and paragraph reconstruction (source lines 124-179) -/

/-- Scan for the earliest closing marker delimiter without crossing a line
break (the regex dot does not match a newline); returns the suffix after the
delimiter when found. -/
def findCloseAux : List Char → Option (List Char)
  | [] => none
  | c :: cs =>
    if startsWithL ">>>".data (c :: cs) then some ((c :: cs).drop 3)
    else if c = '\n' then none
    else findCloseAux cs

/-- Model of re.sub on source line 133: delete every non-greedy marker span.
Fuel is instantiated with the input length. -/
def cleanMarkersF : Nat → List Char → List Char
  | 0, l => l
  | _ + 1, [] => []
  | fuel + 1, c :: cs =>
    if startsWithL "<<<".data (c :: cs) then
      match findCloseAux ((c :: cs).drop 3) with
      | some rest => cleanMarkersF fuel rest
      | none => c :: cleanMarkersF fuel cs
    else c :: cleanMarkersF fuel cs

/-- Marker removal at the input length fuel. -/
def cleanMarkers (l : List Char) : List Char := cleanMarkersF l.length l

/-- One record of the corrections dataframe: the two fields the document
reconstruction reads, already coerced to strings as on source lines 147-148
(missing or null values become the empty string before stripping). -/
structure Finding where
  texto_detetado : String
  sugestao : String

/-- Candidate matches collected for a paragraph (source lines 143-153): the
stripped detected text must be longer than 4 characters and occur in the
paragraph; the stripped suggestion is carried along. -/
def matchesOf (errors : List Finding) (paragraph : List Char) :
    List (List Char × List Char) :=
  errors.filterMap fun e =>
    let bad := stripL e.texto_detetado.data
    let good := stripL e.sugestao.data
    if 4 < bad.length ∧ containsL bad paragraph then some (bad, good) else none

/-- Stable insertion into a list sorted by descending detected-text length. -/
def insertDesc (x : List Char × List Char) :
    List (List Char × List Char) → List (List Char × List Char)
  | [] => [x]
  | y :: ys => if x.1.length < y.1.length then y :: insertDesc x ys else x :: y :: ys

/-- Stable sort by descending detected-text length, modelling the Python
stable list sort with a length key and reverse order (source line 160). -/
def sortDesc : List (List Char × List Char) → List (List Char × List Char)
  | [] => []
  | m :: ms => insertDesc m (sortDesc ms)

/-- Model of Python str.split(sep) for a nonempty separator: the parts
between non-overlapping leftmost occurrences of sep. Fuel is instantiated
with the input length, which suffices because the separator is nonempty. -/
def splitOnF (sep : List Char) : Nat → List Char → List (List Char)
  | 0, l => [l]
  | _ + 1, [] => [[]]
  | fuel + 1, c :: cs =>
    if sep ≠ [] ∧ startsWithL sep (c :: cs) then
      [] :: splitOnF sep fuel ((c :: cs).drop sep.length)
    else
      match splitOnF sep fuel cs with
      | p :: ps => (c :: p) :: ps
      | [] => [[c]]

/-- Python str.split(sep) at the input length fuel. -/
def splitOnL (sep l : List Char) : List (List Char) := splitOnF sep l.length l

/-- Python sep.join(parts): the parts joined with the separator between
consecutive parts. -/
def intercalateL (sep : List Char) : List (List Char) → List Char
  | [] => []
  | [x] => x
  | x :: xs => x ++ sep ++ intercalateL sep xs

/-- One emitted text run: its characters and whether it is displayed as a
correction (red and bold in the generated document). -/
abbrev Run := List Char × Bool

/-- Source lines 139-174, body of the paragraph loop of
generate_corrected_docx: the runs emitted for one nonblank paragraph. -/
def reconstructParagraph (errors : List Finding) (paragraph : List Char) : List Run :=
  match sortDesc (matchesOf errors paragraph) with
  | [] => [(paragraph, false)]
  | (bad, good) :: _ =>
    let parts := splitOnL bad paragraph
    if 2 ≤ parts.length then
      [(parts.headI, false), (good, true), (joinL parts.tail, false)]
    else
      [(paragraph, false)]

/-- Source lines 124-179, generate_corrected_docx: markers are removed, the
text is split on line breaks, blank paragraphs are dropped, and each
remaining paragraph is rendered as its list of runs. -/
def generate_corrected_docx (original_text : String) (errors : List Finding) :
    List (List Run) :=
  ((splitLines (cleanMarkers original_text.data)).filter
      (fun p => !(stripL p).isEmpty)).map (reconstructParagraph errors)

/-- Concatenated text of a list of runs. -/
def concatRuns (rs : List Run) : List Char := joinL (rs.map Prod.fst)

/-! ## Extractors (source lines 28-50) -/

/-- Decimal digit character. -/
def digitChar : Nat → Char
  | 0 => '0' | 1 => '1' | 2 => '2' | 3 => '3' | 4 => '4'
  | 5 => '5' | 6 => '6' | 7 => '7' | 8 => '8' | 9 => '9'
  | _ => '*'

/-- Fuel-bounded decimal digit expansion. -/
def natReprAux : Nat → Nat → List Char
  | 0, _ => []
  | fuel + 1, n =>
    if n < 10 then [digitChar n]
    else natReprAux fuel (n / 10) ++ [digitChar (n % 10)]

/-- Decimal digits of n, the Python f-string rendering of an int. -/
def natRepr (n : Nat) : List Char := natReprAux (n + 1) n

/-- Page marker line inserted by read_pdf_with_pages (source line 36). -/
def pageMarkerLine (n : Nat) : List Char :=
  "<<<PÁGINA ".data ++ natRepr n ++ ">>>".data

/-- Approximate-paragraph marker line inserted by read_docx (source line 48). -/
def parMarkerLine (n : Nat) : List Char :=
  "<<<PARÁGRAFO APROX. ".data ++ natRepr n ++ ">>>".data

/-- Source lines 28-39, read_pdf_with_pages, success path: the input is the
list of per-page extracted texts; pages with empty text are skipped, every
other page contributes a newline, a page marker line and its text verbatim.
The except path, which turns a reader failure into an error string, is not
modelled. -/
def read_pdf_aux (i : Nat) : List String → List Char
  | [] => []
  | pg :: pgs =>
    if pg.data = [] then read_pdf_aux (i + 1) pgs
    else '\n' :: (pageMarkerLine (i + 1) ++ '\n' :: (pg.data ++ read_pdf_aux (i + 1) pgs))

/-- Source lines 28-39: read_pdf_with_pages over the page texts. -/
def read_pdf_with_pages (pages : List String) : String := String.mk (read_pdf_aux 0 pages)

/-- Source lines 41-50, read_docx: the input is the list of paragraph texts;
paragraphs whose text strips to empty are skipped, every twentieth original
index adds an approximate-position marker before the paragraph, and each kept
paragraph is emitted followed by a newline. -/
def read_docx_aux (i : Nat) : List String → List Char
  | [] => []
  | p :: ps =>
    if stripL p.data = [] then read_docx_aux (i + 1) ps
    else if i % 20 = 0 then
      '\n' :: (parMarkerLine i ++ '\n' :: (p.data ++ '\n' :: read_docx_aux (i + 1) ps))
    else p.data ++ '\n' :: read_docx_aux (i + 1) ps

/-- Source lines 41-50: read_docx over the paragraph texts. -/
def read_docx (paragraphs : List String) : String := String.mk (read_docx_aux 0 paragraphs)

/-- Lines shaped like the synthetic position markers, following the pattern
of the cleaning regex on source line 133. -/
def isMarkerLine (l : List Char) : Bool :=
  startsWithL "<<<".data l && startsWithL ">>>".data.reverse l.reverse

/-! ## Run validation (source lines 277-283) -/

/-- Source lines 277-283: the run hard-stops with an unreadable-document
error when the extracted text is shorter than 50 characters; otherwise it
proceeds to chunking with the budget 12000. -/
def main_validation (full_text : String) : Except String (List String) :=
  if full_text.length < 50 then Except.error "Texto demasiado curto ou ilegível."
  else Except.ok (split_text_into_chunks full_text 12000)

/-! ## JSON values and a model of json.loads -/

/-- Parsed JSON values. Numbers carry no payload: no claim inspects the
numeric value, only the shape of the parsed document. -/
inductive Jval where
  | null : Jval
  | boolean : Bool → Jval
  | num : Jval
  | str : List Char → Jval
  | arr : List Jval → Jval
  | obj : List (List Char × Jval) → Jval

/-- JSON insignificant whitespace. -/
def isJsonWs (c : Char) : Bool := c = ' ' || c = '\t' || c = '\n' || c = '\r'

/-- Skip insignificant whitespace. -/
def skipWs (l : List Char) : List Char := l.dropWhile isJsonWs

/-- Hexadecimal digit test. -/
def isHexDigit (c : Char) : Bool :=
  ('0' ≤ c && c ≤ '9') || ('a' ≤ c && c ≤ 'f') || ('A' ≤ c && c ≤ 'F')

/-- Decimal digit test. -/
def isDigitC (c : Char) : Bool := '0' ≤ c && c ≤ '9'

/-- Body of a JSON string after the opening quote: returns the raw content
(escapes kept undecoded, which no claim inspects) and the rest after the
closing quote; malformed escapes and raw control characters fail. -/
def parseStringBody : Nat → List Char → Option (List Char × List Char)
  | 0, _ => none
  | _ + 1, [] => none
  | fuel + 1, c :: cs =>
    if c = '"' then some ([], cs)
    else if c = '\\' then
      match cs with
      | [] => none
      | e :: cs2 =>
        if e = 'u' then
          match cs2 with
          | h1 :: h2 :: h3 :: h4 :: cs3 =>
            if isHexDigit h1 && isHexDigit h2 && isHexDigit h3 && isHexDigit h4 then
              match parseStringBody fuel cs3 with
              | some (content, rest) => some (e :: h1 :: h2 :: h3 :: h4 :: content, rest)
              | none => none
            else none
          | _ => none
        else if e = '"' || e = '\\' || e = '/' || e = 'b' || e = 'f' ||
            e = 'n' || e = 'r' || e = 't' then
          match parseStringBody fuel cs2 with
          | some (content, rest) => some (e :: content, rest)
          | none => none
        else none
    else if c.val < 32 then none
    else
      match parseStringBody fuel cs with
      | some (content, rest) => some (c :: content, rest)
      | none => none

/-- Integer part of a JSON number: one zero, or a nonzero digit followed by
digits. -/
def parseIntDigits : List Char → Option (List Char)
  | [] => none
  | c :: cs =>
    if c = '0' then some cs
    else if isDigitC c then some (cs.dropWhile isDigitC)
    else none

/-- Optional fraction part of a JSON number. -/
def parseFracPart : List Char → Option (List Char)
  | '.' :: r =>
    match r.takeWhile isDigitC with
    | [] => none
    | _ => some (r.dropWhile isDigitC)
  | l => some l

/-- Optional exponent part of a JSON number. -/
def parseExpPart : List Char → Option (List Char)
  | c :: r =>
    if c = 'e' || c = 'E' then
      let r2 := match r with
        | s :: r3 => if s = '+' || s = '-' then r3 else s :: r3
        | [] => []
      match r2.takeWhile isDigitC with
      | [] => none
      | _ => some (r2.dropWhile isDigitC)
    else some (c :: r)
  | [] => some []

/-- JSON number after its optional sign; returns the rest after the number. -/
def parseNumber (l : List Char) : Option (List Char) :=
  match parseIntDigits l with
  | none => none
  | some r1 =>
    match parseFracPart r1 with
    | none => none
    | some r2 => parseExpPart r2

mutual

/-- Recursive-descent JSON value parser modelling json.loads (which also
accepts the NaN and Infinity extensions); fuel bounds the recursion. -/
def parseValue : Nat → List Char → Option (Jval × List Char)
  | 0, _ => none
  | fuel + 1, l =>
    match skipWs l with
    | [] => none
    | c :: cs =>
      if c = '{' then parseObjBody fuel cs
      else if c = '[' then parseArrBody fuel cs
      else if c = '"' then
        match parseStringBody fuel cs with
        | some (content, rest) => some (Jval.str content, rest)
        | none => none
      else if startsWithL "true".data (c :: cs) then
        some (Jval.boolean true, (c :: cs).drop 4)
      else if startsWithL "false".data (c :: cs) then
        some (Jval.boolean false, (c :: cs).drop 5)
      else if startsWithL "null".data (c :: cs) then
        some (Jval.null, (c :: cs).drop 4)
      else if startsWithL "NaN".data (c :: cs) then
        some (Jval.num, (c :: cs).drop 3)
      else if startsWithL "Infinity".data (c :: cs) then
        some (Jval.num, (c :: cs).drop 8)
      else if startsWithL "-Infinity".data (c :: cs) then
        some (Jval.num, (c :: cs).drop 9)
      else if c = '-' then
        match parseNumber cs with
        | some rest => some (Jval.num, rest)
        | none => none
      else
        match parseNumber (c :: cs) with
        | some rest => some (Jval.num, rest)
        | none => none

/-- Array contents after the opening bracket. -/
def parseArrBody : Nat → List Char → Option (Jval × List Char)
  | 0, _ => none
  | fuel + 1, l =>
    match skipWs l with
    | ']' :: rest => some (Jval.arr [], rest)
    | l2 =>
      match parseValue fuel l2 with
      | none => none
      | some (v, rest) =>
        match parseArrRest fuel rest with
        | none => none
        | some (vs, rest2) => some (Jval.arr (v :: vs), rest2)

/-- Array continuation: a comma and a value, or the closing bracket. -/
def parseArrRest : Nat → List Char → Option (List Jval × List Char)
  | 0, _ => none
  | fuel + 1, l =>
    match skipWs l with
    | ']' :: rest => some ([], rest)
    | ',' :: rest =>
      match parseValue fuel rest with
      | none => none
      | some (v, rest2) =>
        match parseArrRest fuel rest2 with
        | none => none
        | some (vs, rest3) => some (v :: vs, rest3)
    | _ => none

/-- Object contents after the opening brace. -/
def parseObjBody : Nat → List Char → Option (Jval × List Char)
  | 0, _ => none
  | fuel + 1, l =>
    match skipWs l with
    | '}' :: rest => some (Jval.obj [], rest)
    | '"' :: rest =>
      match parseMember fuel rest with
      | none => none
      | some (kv, rest2) =>
        match parseObjRest fuel rest2 with
        | none => none
        | some (kvs, rest3) => some (Jval.obj (kv :: kvs), rest3)
    | _ => none

/-- One object member after the opening quote of its key. -/
def parseMember : Nat → List Char → Option ((List Char × Jval) × List Char)
  | 0, _ => none
  | fuel + 1, l =>
    match parseStringBody fuel l with
    | none => none
    | some (key, rest) =>
      match skipWs rest with
      | ':' :: rest2 =>
        match parseValue fuel rest2 with
        | none => none
        | some (v, rest3) => some ((key, v), rest3)
      | _ => none

/-- Object continuation: a comma and a member, or the closing brace. -/
def parseObjRest : Nat → List Char → Option (List (List Char × Jval) × List Char)
  | 0, _ => none
  | fuel + 1, l =>
    match skipWs l with
    | '}' :: rest => some ([], rest)
    | ',' :: rest =>
      match skipWs rest with
      | '"' :: rest2 =>
        match parseMember fuel rest2 with
        | none => none
        | some (kv, rest3) =>
          match parseObjRest fuel rest3 with
          | none => none
          | some (kvs, rest4) => some (kv :: kvs, rest4)
      | _ => none
    | _ => none

end

/-- Model of json.loads: parse one value and require nothing but whitespace
after it. The fuel is generous: the parser spends at most a few units per
input character. -/
def json_loads (s : String) : Option Jval :=
  match parseValue (4 * s.data.length + 8) s.data with
  | some (v, rest) => if skipWs rest = [] then some v else none
  | none => none

/-- True when json.loads succeeds. -/
def jsonParses (s : String) : Bool := (json_loads s).isSome

/-! ## Chunk loop of the orchestrator (source lines 291-314) -/

/-- The two observable per-chunk failure records: the user-facing API warning
(source line 309) and the parse-failure log line (source line 307). -/
inductive ChunkEvent where
  | apiWarning : ChunkEvent
  | parseLog : ChunkEvent

/-- Normalisation of a parsed response (source lines 303-304): a dict is
wrapped into a one-element list and a list is taken as is; any other value
contributes nothing. -/
def normalizeParsed : Jval → List Jval
  | Jval.obj fs => [Jval.obj fs]
  | Jval.arr vs => vs
  | _ => []

/-- Shape tests used to state the normalisation claims. -/
def isObjJ : Jval → Bool
  | Jval.obj _ => true
  | _ => false

/-- Array shape test. -/
def isArrJ : Jval → Bool
  | Jval.arr _ => true
  | _ => false

/-- Source lines 291-309, loop body for one chunk: an ERROR-prefixed response
surfaces a warning, an unparsable repaired response is logged, and otherwise
the parsed findings are kept; the body never raises. -/
def process_chunk (raw_resp : String) : List Jval × Option ChunkEvent :=
  if startsWithL "ERROR".data raw_resp.data then ([], some ChunkEvent.apiWarning)
  else
    match json_loads (repair_json raw_resp) with
    | some data => (normalizeParsed data, none)
    | none => ([], some ChunkEvent.parseLog)

/-- Source lines 291-314: the sequential chunk loop, aggregating findings and
failure events in chunk order. -/
def run_review_loop (review : String → String) : List String → List Jval × List ChunkEvent
  | [] => ([], [])
  | c :: cs =>
    ((process_chunk (review c)).1 ++ (run_review_loop review cs).1,
      (process_chunk (review c)).2.toList ++ (run_review_loop review cs).2)

/-! ## Lemmas about the helpers -/

lemma splitLines_ne_nil (l : List Char) : splitLines l ≠ [] := by
  induction l with
  | nil => simp [splitLines]
  | cons c cs ih =>
    simp only [splitLines]
    split
    · simp
    · cases h : splitLines cs <;> simp

lemma noNL_of_mem_splitLines (l : List Char) :
    ∀ x ∈ splitLines l, '\n' ∉ x := by
  induction l with
  | nil => intro x hx; simp [splitLines] at hx; simp [hx]
  | cons c cs ih =>
    intro x hx
    by_cases hc : c = '\n'
    · simp only [splitLines, if_pos hc] at hx
      rcases List.mem_cons.mp hx with h | h
      · simp [h]
      · exact ih x h
    · simp only [splitLines, if_neg hc] at hx
      cases h : splitLines cs with
      | nil => exact absurd h (splitLines_ne_nil cs)
      | cons l0 ls =>
        rw [h] at hx
        rcases List.mem_cons.mp hx with h1 | h1
        · subst h1
          intro hmem
          rcases List.mem_cons.mp hmem with h2 | h2
          · exact hc h2.symm
          · exact ih l0 (h ▸ List.mem_cons_self l0 ls) h2
        · exact ih x (h ▸ List.mem_cons_of_mem l0 h1)

lemma splitLines_joinNL (l : List Char) :
    joinL ((splitLines l).map (fun p => p ++ ['\n'])) = l ++ ['\n'] := by
  induction l with
  | nil => simp [splitLines, joinL]
  | cons c cs ih =>
    by_cases hc : c = '\n'
    · subst hc
      simp only [splitLines, if_pos rfl, List.map_cons, joinL]
      rw [ih]
      simp
    · simp only [splitLines, if_neg hc]
      cases h : splitLines cs with
      | nil => exact absurd h (splitLines_ne_nil cs)
      | cons l0 ls =>
        rw [h] at ih
        simp only [List.map_cons, joinL] at ih ⊢
        simp only [List.cons_append, List.append_assoc] at ih ⊢
        rw [ih]

lemma joinL_split_chunks_go (b : Nat) (lines : List (List Char)) (cur : List Char) :
    joinL (split_chunks_go b lines cur) =
      cur ++ joinL (lines.map (fun p => p ++ ['\n'])) := by
  induction lines generalizing cur with
  | nil =>
    simp only [split_chunks_go, List.map_nil]
    split
    · simp_all [joinL]
    · simp [joinL]
  | cons p ps ih =>
    simp only [split_chunks_go, List.map_cons, joinL]
    split
    · rw [ih]
      simp [List.append_assoc]
    · simp only [joinL]
      rw [ih]

lemma mk_append_mk (a b : List Char) : String.mk a ++ String.mk b = String.mk (a ++ b) := rfl

lemma foldl_append_mk (ls : List (List Char)) (acc : List Char) :
    List.foldl (· ++ ·) (String.mk acc) (ls.map String.mk) = String.mk (acc ++ joinL ls) := by
  induction ls generalizing acc with
  | nil => simp [joinL]
  | cons x xs ih =>
    simp only [List.map_cons, List.foldl_cons, joinL]
    rw [mk_append_mk, ih, List.append_assoc]

lemma join_map_mk (ls : List (List Char)) :
    String.join (ls.map String.mk) = String.mk (joinL ls) := by
  have h := foldl_append_mk ls []
  simpa [String.join] using h

lemma getLast?_append_singleton (l : List Char) (a : Char) :
    (l ++ [a]).getLast? = some a := List.getLast?_concat l

/-! ## C1: chunk concatenation -/

/-- C1 (amended): concatenating the chunks reproduces the input text followed
by one extra newline: every line of the input, the last included, receives a
terminating newline, and apart from that single trailing newline there is no
loss, duplication or reordering. -/
theorem split_chunks_concat (text : String) (max_chars : Nat) :
    String.join (split_text_into_chunks text max_chars) = text ++ "\n" := by
  obtain ⟨l⟩ := text
  show String.join ((split_chunks_go max_chars (splitLines l) []).map String.mk) = _
  rw [join_map_mk, joinL_split_chunks_go, List.nil_append, splitLines_joinNL]
  rfl

/-- C1 (counterexample): for the input "abc" and the positive budget 12000 the
concatenation of the chunks is "abc" followed by a newline, not the input text
itself, so the partition claim fails as stated. -/
theorem split_chunks_concat_counterexample :
    String.join (split_text_into_chunks "abc" 12000) = "abc\n" ∧
      ("abc\n" : String) ≠ "abc" := by
  constructor
  · rfl
  · decide

/-! ## C2: chunk size bound -/

lemma split_chunks_go_bound (b : Nat) (lines : List (List Char)) (cur : List Char)
    (hl : ∀ p ∈ lines, '\n' ∉ p)
    (hc : cur.length ≤ b ∨ ∃ q, cur = q ++ ['\n'] ∧ '\n' ∉ q ∧ b ≤ q.length) :
    ∀ ch ∈ split_chunks_go b lines cur,
      ch.length ≤ b ∨ ∃ q, ch = q ++ ['\n'] ∧ '\n' ∉ q ∧ b ≤ q.length := by
  induction lines generalizing cur with
  | nil =>
    intro ch hch
    simp only [split_chunks_go] at hch
    split at hch
    · simp at hch
    · rcases List.mem_singleton.mp hch with rfl
      exact hc
  | cons p ps ih =>
    intro ch hch
    have hp : '\n' ∉ p := hl p (List.mem_cons_self p ps)
    have hps : ∀ q ∈ ps, '\n' ∉ q := fun q hq => hl q (List.mem_cons_of_mem p hq)
    simp only [split_chunks_go] at hch
    split at hch
    · refine ih (cur ++ p ++ ['\n']) hps (Or.inl ?_) ch hch
      simp only [List.length_append, List.length_cons, List.length_nil]
      omega
    · rcases List.mem_cons.mp hch with rfl | hmem
      · exact hc
      · refine ih (p ++ ['\n']) hps ?_ ch hmem
        by_cases hlen : p.length + 1 ≤ b
        · left; simp [hlen]
        · right
          exact ⟨p, rfl, hp, by omega⟩

/-- C2 (amended): every chunk has length at most the budget, except chunks
consisting of a single line together with its appended newline, in which case
the line length is at least the budget (so already a line of length exactly
the budget produces a chunk one character over budget). -/
theorem chunk_size_bound (text : String) (max_chars : Nat) (c : String)
    (hc : c ∈ split_text_into_chunks text max_chars) :
    c.length ≤ max_chars ∨
      (c.data.getLast? = some '\n' ∧ '\n' ∉ c.data.dropLast ∧
        max_chars ≤ c.data.dropLast.length) := by
  rcases List.mem_map.mp hc with ⟨l, hl, rfl⟩
  have h := split_chunks_go_bound max_chars (splitLines text.data) []
    (noNL_of_mem_splitLines text.data) (Or.inl (by simp)) l hl
  rcases h with h | ⟨q, rfl, hq, hlen⟩
  · exact Or.inl h
  · right
    refine ⟨getLast?_append_singleton q '\n', ?_, ?_⟩
    · rw [show (String.mk (q ++ ['\n'])).data = q ++ ['\n'] from rfl, List.dropLast_concat]
      exact hq
    · rw [show (String.mk (q ++ ['\n'])).data = q ++ ['\n'] from rfl, List.dropLast_concat]
      exact hlen

/-- C2 (witness): the bound instantiated on a concrete run. -/
theorem chunk_size_bound_witness :
    ("ab\ncd\n" : String).length ≤ 12000 ∨
      (("ab\ncd\n" : String).data.getLast? = some '\n' ∧
        '\n' ∉ ("ab\ncd\n" : String).data.dropLast ∧
        12000 ≤ ("ab\ncd\n" : String).data.dropLast.length) :=
  chunk_size_bound "ab\ncd" 12000 "ab\ncd\n" (by decide)

/-- C2 (counterexample): with budget 3 and input "abc" the produced chunk
"abc" plus its appended newline has length 4, exceeding the budget, while its
single line "abc" has length 3 and so does not itself exceed the budget: the
stated exception does not cover this chunk. -/
theorem chunk_size_bound_counterexample :
    ("abc\n" : String) ∈ split_text_into_chunks "abc" 3 ∧
      ¬ (("abc\n" : String).length ≤ 3 ∨
        (("abc\n" : String).data.getLast? = some '\n' ∧
          '\n' ∉ ("abc\n" : String).data.dropLast ∧
          3 < ("abc\n" : String).data.dropLast.length)) := by
  decide

/-! ## C9: empty first chunk on an oversized first line -/

/-- C9: if the first line of the text is at least as long as the budget, the
accumulator, still empty, is flushed, and the first returned chunk is the
empty string. -/
theorem first_line_overflow_empty_first_chunk (text : String) (max_chars : Nat)
    (l : List Char) (ls : List (List Char))
    (h1 : splitLines text.data = l :: ls) (h2 : max_chars ≤ l.length) :
    (split_text_into_chunks text max_chars).head? = some "" := by
  unfold split_text_into_chunks
  rw [h1]
  simp only [split_chunks_go, List.length_nil, Nat.zero_add]
  rw [if_neg (by omega)]
  rfl

/-- C9 (witness): a first line of length 6 against budget 3 yields an empty
first chunk. -/
theorem first_line_overflow_empty_first_chunk_witness :
    (split_text_into_chunks "abcdef" 3).head? = some "" :=
  first_line_overflow_empty_first_chunk "abcdef" 3 "abcdef".data [] (by decide) (by decide)

/-! ## Lemmas about splitting on a separator -/

lemma startsWithL_append (pat : List Char) :
    ∀ l, startsWithL pat l = true → l = pat ++ l.drop pat.length := by
  induction pat with
  | nil => intro l _; simp
  | cons p ps ih =>
    intro l h
    cases l with
    | nil => simp [startsWithL] at h
    | cons c cs =>
      simp only [startsWithL, Bool.and_eq_true, decide_eq_true_eq] at h
      obtain ⟨rfl, h2⟩ := h
      have := ih cs h2
      simp only [List.cons_append, List.length_cons, List.drop_succ_cons]
      exact congrArg (p :: ·) this

lemma splitOnF_ne_nil (sep : List Char) : ∀ fuel l, splitOnF sep fuel l ≠ [] := by
  intro fuel l
  match fuel, l with
  | 0, l => simp [splitOnF]
  | _ + 1, [] => simp [splitOnF]
  | fuel + 1, c :: cs =>
    simp only [splitOnF]
    split
    · simp
    · cases h : splitOnF sep fuel cs <;> simp

lemma splitOnF_intercalate (sep : List Char) (hsep : sep ≠ []) :
    ∀ fuel l, l.length ≤ fuel → intercalateL sep (splitOnF sep fuel l) = l := by
  intro fuel
  induction fuel with
  | zero => intro l _; simp [splitOnF, intercalateL]
  | succ f ih =>
    intro l hl
    cases l with
    | nil => simp [splitOnF, intercalateL]
    | cons c cs =>
      simp only [splitOnF]
      split
      · rename_i hpre
        have hdrop : ((c :: cs).drop sep.length).length ≤ f := by
          have h1 : 0 < sep.length := List.length_pos.mpr hsep
          simp only [List.length_drop, List.length_cons]
          simp only [List.length_cons] at hl
          omega
        cases hr : splitOnF sep f ((c :: cs).drop sep.length) with
        | nil => exact absurd hr (splitOnF_ne_nil sep f _)
        | cons r rs =>
          have hi := ih ((c :: cs).drop sep.length) hdrop
          rw [hr] at hi
          simp only [intercalateL]
          rw [show ([] : List Char) ++ sep ++ intercalateL sep (r :: rs) =
            sep ++ intercalateL sep (r :: rs) from by simp, hi]
          exact (startsWithL_append sep (c :: cs) hpre.2).symm
      · have hcs : cs.length ≤ f := by
          simp only [List.length_cons] at hl; omega
        have hi := ih cs hcs
        cases hr : splitOnF sep f cs with
        | nil => exact absurd hr (splitOnF_ne_nil sep f cs)
        | cons p ps =>
          rw [hr] at hi
          cases ps with
          | nil =>
            simp only [intercalateL] at hi ⊢
            rw [hi]
          | cons q qs =>
            simp only [intercalateL] at hi ⊢
            simp only [List.cons_append, List.append_assoc] at hi ⊢
            rw [hi]

lemma splitOnL_intercalate {sep : List Char} (hsep : sep ≠ []) (l : List Char) :
    intercalateL sep (splitOnL sep l) = l :=
  splitOnF_intercalate sep hsep l.length l (Nat.le_refl _)

lemma splitOnL_pair {sep l a b : List Char} (hsep : sep ≠ [])
    (h : splitOnL sep l = [a, b]) : l = a ++ sep ++ b := by
  have hi := splitOnL_intercalate hsep l
  rw [h] at hi
  simp only [intercalateL] at hi
  exact hi.symm

lemma contains_splitOnF (sep : List Char) (hsep : sep ≠ []) :
    ∀ fuel l, l.length ≤ fuel → containsL sep l = true →
      2 ≤ (splitOnF sep fuel l).length := by
  intro fuel
  induction fuel with
  | zero =>
    intro l hl hc
    interval_cases hlen : l.length
    · rw [List.length_eq_zero.mp hlen] at hc
      cases sep with
      | nil => exact absurd rfl hsep
      | cons s ss => simp [containsL, startsWithL] at hc
  | succ f ih =>
    intro l hl hc
    cases l with
    | nil =>
      cases sep with
      | nil => exact absurd rfl hsep
      | cons s ss => simp [containsL, startsWithL] at hc
    | cons c cs =>
      simp only [splitOnF]
      split
      · have := splitOnF_ne_nil sep f ((c :: cs).drop sep.length)
        cases h : splitOnF sep f ((c :: cs).drop sep.length) with
        | nil => exact absurd h this
        | cons r rs => simp
      · rename_i hneg
        have hpre : startsWithL sep (c :: cs) = false := by
          by_contra hb
          exact hneg ⟨hsep, by revert hb; cases startsWithL sep (c :: cs) <;> simp⟩
        have hc2 : containsL sep cs = true := by
          simp only [containsL, hpre, Bool.false_or] at hc
          exact hc
        have hcs : cs.length ≤ f := by
          simp only [List.length_cons] at hl; omega
        have := ih cs hcs hc2
        cases h : splitOnF sep f cs with
        | nil => exact absurd h (splitOnF_ne_nil sep f cs)
        | cons p ps =>
          rw [h] at this
          simpa using this

lemma contains_splitOnL {sep l : List Char} (hsep : sep ≠ [])
    (hc : containsL sep l = true) : 2 ≤ (splitOnL sep l).length :=
  contains_splitOnF sep hsep l.length l (Nat.le_refl _) hc

/-! ## Lemmas about match collection and selection -/

lemma mem_insertDesc {x y : List Char × List Char} {ys : List (List Char × List Char)}
    (h : x ∈ insertDesc y ys) : x = y ∨ x ∈ ys := by
  induction ys with
  | nil =>
    simp [insertDesc] at h
    exact Or.inl h
  | cons z zs ih =>
    simp only [insertDesc] at h
    split at h
    · rcases List.mem_cons.mp h with rfl | h2
      · exact Or.inr (List.mem_cons_self _ _)
      · rcases ih h2 with h3 | h3
        · exact Or.inl h3
        · exact Or.inr (List.mem_cons_of_mem _ h3)
    · rcases List.mem_cons.mp h with rfl | h2
      · exact Or.inl rfl
      · exact Or.inr h2

lemma mem_sortDesc {x : List Char × List Char} {ms : List (List Char × List Char)}
    (h : x ∈ sortDesc ms) : x ∈ ms := by
  induction ms with
  | nil => simp [sortDesc] at h
  | cons m rest ih =>
    simp only [sortDesc] at h
    rcases mem_insertDesc h with rfl | h2
    · exact List.mem_cons_self _ _
    · exact List.mem_cons_of_mem _ (ih h2)

lemma mem_matchesOf {errors : List Finding} {par b g : List Char}
    (h : (b, g) ∈ matchesOf errors par) :
    4 < b.length ∧ containsL b par = true := by
  unfold matchesOf at h
  rcases List.mem_filterMap.mp h with ⟨e, _, he⟩
  dsimp only at he
  split at he
  · rename_i hcond
    injection he with he2
    injection he2 with hb hg
    subst hb
    exact ⟨hcond.1, hcond.2⟩
  · simp at he

/-! ## C3: reconstruction frame property -/

/-- C3 (amended): a paragraph with no candidate match is emitted as one
unchanged run; in a paragraph with a match the selected detected text splits
the paragraph, the part before the first occurrence and the stripped
suggestion are emitted, and the remaining parts are joined directly, so the
text between occurrences is preserved but every occurrence of the detected
text after the first is dropped rather than kept. -/
theorem reconstruct_frame (errors : List Finding) (paragraph : List Char) :
    (matchesOf errors paragraph = [] →
      reconstructParagraph errors paragraph = [(paragraph, false)]) ∧
    ∀ bad good rest, sortDesc (matchesOf errors paragraph) = (bad, good) :: rest →
      ∃ pre parts, splitOnL bad paragraph = pre :: parts ∧ parts ≠ [] ∧
        reconstructParagraph errors paragraph =
          [(pre, false), (good, true), (joinL parts, false)] ∧
        paragraph = pre ++ bad ++ intercalateL bad parts := by
  constructor
  · intro h
    unfold reconstructParagraph
    rw [h]
    rfl
  · intro bad good rest h
    have hmem : (bad, good) ∈ matchesOf errors paragraph :=
      mem_sortDesc (h ▸ List.mem_cons_self _ rest)
    obtain ⟨hlen, hcont⟩ := mem_matchesOf hmem
    have hne : bad ≠ [] := by
      intro hb
      rw [hb] at hlen
      simp at hlen
    have h2 := contains_splitOnL hne hcont
    obtain ⟨p0, rest0, hsp⟩ : ∃ p0 r, splitOnL bad paragraph = p0 :: r := by
      cases hs : splitOnL bad paragraph with
      | nil => rw [hs] at h2; simp at h2
      | cons a b => exact ⟨a, b, rfl⟩
    have hrne : rest0 ≠ [] := by
      intro hr
      rw [hsp, hr] at h2
      simp at h2
    refine ⟨p0, rest0, hsp, hrne, ?_, ?_⟩
    · unfold reconstructParagraph
      rw [h]
      dsimp only
      rw [hsp]
      rw [if_pos (by cases rest0 with
        | nil => exact absurd rfl hrne
        | cons z zs => simp)]
      simp [List.headI]
    · have hi := splitOnL_intercalate hne paragraph
      rw [hsp] at hi
      cases rest0 with
      | nil => exact absurd rfl hrne
      | cons z zs =>
        simp only [intercalateL] at hi
        simp only [List.append_assoc] at hi ⊢
        exact hi.symm

/-- C3 (witness): a paragraph with no match is kept byte for byte. -/
theorem reconstruct_frame_witness :
    reconstructParagraph [] "ola".data = [("ola".data, false)] :=
  (reconstruct_frame [] "ola".data).1 (by decide)

/-- C3 (counterexample): with the finding (abcde, X) and the paragraph
1abcde2abcde3, only the first occurrence should be replaced and no text
dropped, which would give 1X2abcde3; the code instead joins the split parts
and emits 1X23, dropping the second occurrence of the detected text. -/
theorem reconstruct_frame_counterexample :
    concatRuns (reconstructParagraph [⟨"abcde", "X"⟩] "1abcde2abcde3".data) = "1X23".data ∧
      concatRuns (reconstructParagraph [⟨"abcde", "X"⟩] "1abcde2abcde3".data) ≠
        "1X2abcde3".data := by
  decide

/-! ## C4: single-match reconstruction -/

/-- C4 (amended): if exactly one finding matches the paragraph and its
detected text occurs exactly once, the paragraph is reconstructed as the
prefix, the stripped suggestion marked as a correction, and the suffix, where
prefix, detected text and suffix concatenate to the original paragraph. The
suggestion is inserted after stripping surrounding whitespace, which is the
one divergence from the claim as stated. -/
theorem reconstruct_single_match (errors : List Finding)
    (paragraph bad good pre suf : List Char)
    (hm : matchesOf errors paragraph = [(bad, good)])
    (hs : splitOnL bad paragraph = [pre, suf]) :
    reconstructParagraph errors paragraph = [(pre, false), (good, true), (suf, false)] ∧
      pre ++ bad ++ suf = paragraph := by
  have hmem : (bad, good) ∈ matchesOf errors paragraph := by
    rw [hm]; exact List.mem_singleton.mpr rfl
  obtain ⟨hlen, _⟩ := mem_matchesOf hmem
  have hne : bad ≠ [] := by
    intro hb
    rw [hb] at hlen
    simp at hlen
  constructor
  · unfold reconstructParagraph
    rw [hm]
    show (match sortDesc [(bad, good)] with
      | [] => [(paragraph, false)]
      | (bad, good) :: _ =>
        let parts := splitOnL bad paragraph
        if 2 ≤ parts.length then
          [(parts.headI, false), (good, true), (joinL parts.tail, false)]
        else [(paragraph, false)]) = _
    rw [show sortDesc [(bad, good)] = [(bad, good)] from rfl]
    dsimp only
    rw [hs]
    rw [if_pos (by simp)]
    simp [List.headI, joinL]
  · exact (splitOnL_pair hne hs).symm

/-- C4 (witness): the concrete scenario of the claim, the legal-reference
finding applied to the paragraph about DL 151/2013, with the replacement
marked as a correction. -/
theorem reconstruct_single_match_witness :
    reconstructParagraph
        [⟨"DL 151/2013", "DL 151-B/2013 (alterado pelo DL 11/2023)"⟩]
        "Referencia DL 151/2013 errada.".data =
      [("Referencia ".data, false),
        ("DL 151-B/2013 (alterado pelo DL 11/2023)".data, true),
        (" errada.".data, false)] ∧
      "Referencia ".data ++ "DL 151/2013".data ++ " errada.".data =
        "Referencia DL 151/2013 errada.".data :=
  reconstruct_single_match _ _ _ _ _ _ (by decide) (by decide)

/-- C4 (counterexample): the code strips the suggestion before inserting it,
so for the finding (abcde, space x space) on the paragraph Zabcde W the
emitted middle run is x rather than the suggestion text itself, and the
reconstructed paragraph differs from prefix plus suggestion plus suffix. -/
theorem reconstruct_single_match_counterexample :
    reconstructParagraph [⟨"abcde", " x "⟩] "Zabcde W".data =
      [("Z".data, false), ("x".data, true), (" W".data, false)] ∧
      reconstructParagraph [⟨"abcde", " x "⟩] "Zabcde W".data ≠
        [("Z".data, false), (" x ".data, true), (" W".data, false)] := by
  decide

/-! ## Lemmas about stripping and fence removal -/

lemma head?_dropWhile_false (p : Char → Bool) :
    ∀ (l : List Char) (c : Char), (l.dropWhile p).head? = some c → p c = false := by
  intro l
  induction l with
  | nil => intro c h; simp at h
  | cons a as ih =>
    intro c h
    by_cases hp : p a = true
    · rw [List.dropWhile_cons_of_pos hp] at h
      exact ih c h
    · rw [List.dropWhile_cons_of_neg hp] at h
      simp only [List.head?_cons, Option.some.injEq] at h
      subst h
      rw [Bool.not_eq_true] at hp
      exact hp

lemma mem_of_getLast?_eq {l : List Char} {c : Char} (h : l.getLast? = some c) : c ∈ l :=
  List.mem_of_mem_getLast? (Option.mem_def.mpr h)

lemma lstripL_eq_self {l : List Char} {c : Char} (h : l.head? = some c)
    (hc : isSpaceC c = false) : lstripL l = l := by
  cases l with
  | nil => rfl
  | cons a as =>
    simp only [List.head?_cons, Option.some.injEq] at h
    subst h
    exact List.dropWhile_cons_of_neg (by simp [hc])

lemma rstripL_eq_self {l : List Char} {c : Char} (h : l.getLast? = some c)
    (hc : isSpaceC c = false) : rstripL l = l := by
  rw [← List.head?_reverse] at h
  unfold rstripL
  cases hr : l.reverse with
  | nil =>
    have hl : l = [] := List.reverse_eq_nil_iff.mp hr
    simp [hl]
  | cons a as =>
    rw [hr] at h
    simp only [List.head?_cons, Option.some.injEq] at h
    subst h
    rw [List.dropWhile_cons_of_neg (by simp [hc]), ← hr, List.reverse_reverse]

lemma stripL_eq_self {l : List Char} {c1 c2 : Char} (h1 : l.head? = some c1)
    (hn1 : isSpaceC c1 = false) (h2 : l.getLast? = some c2)
    (hn2 : isSpaceC c2 = false) : stripL l = l := by
  unfold stripL
  rw [rstripL_eq_self h2 hn2]
  exact lstripL_eq_self h1 hn1

lemma dropWhile_reverse_prefix (p : Char → Bool) (l : List Char) :
    ∃ w, l = (l.reverse.dropWhile p).reverse ++ w := by
  refine ⟨(l.reverse.takeWhile p).reverse, ?_⟩
  rw [← List.reverse_append, List.takeWhile_append_dropWhile, List.reverse_reverse]

lemma rstripL_prefix (l : List Char) : ∃ w, l = rstripL l ++ w := by
  unfold rstripL
  exact dropWhile_reverse_prefix _ l

lemma rstripCommaL_prefix (l : List Char) : ∃ w, l = rstripCommaL l ++ w := by
  unfold rstripCommaL
  exact dropWhile_reverse_prefix _ l

lemma head?_append_cases {u v : List Char} {c : Char}
    (h : (u ++ v).head? = some c) : u.head? = some c ∨ (u = [] ∧ v.head? = some c) := by
  cases u with
  | nil => exact Or.inr ⟨rfl, by simpa using h⟩
  | cons a as => exact Or.inl (by simpa using h)

lemma head_not_space_append {base : List Char}
    (hb : ∀ c0, base.head? = some c0 → isSpaceC c0 = false) (apps : List Char)
    (ha : ∀ c0 ∈ apps, isSpaceC c0 = false) :
    ∀ c, (base ++ apps).head? = some c → isSpaceC c = false := by
  intro c h
  rcases head?_append_cases h with h1 | ⟨_, h2⟩
  · exact hb c h1
  · apply ha
    cases apps with
    | nil => simp at h2
    | cons a as =>
      simp only [List.head?_cons, Option.some.injEq] at h2
      subst h2
      exact List.mem_cons_self _ _

lemma getLast?_append_right {u v : List Char} (h : v ≠ []) :
    (u ++ v).getLast? = v.getLast? := by
  rw [← List.head?_reverse, ← List.head?_reverse, List.reverse_append]
  cases hv : v.reverse with
  | nil => exact absurd (List.reverse_eq_nil_iff.mp hv) h
  | cons a as => simp

lemma close_json_getLast (s : List Char) : (close_json s).getLast? = some ']' := by
  unfold close_json
  exact getLast?_append_singleton _ _

lemma close_json_head {s : List Char}
    (hs : ∀ c0, s.head? = some c0 → isSpaceC c0 = false) :
    ∀ c, (close_json s).head? = some c → isSpaceC c = false := by
  have ht0 : ∀ c0, (rstripL (rstripCommaL s)).head? = some c0 → isSpaceC c0 = false := by
    intro c0 h0
    obtain ⟨w1, hw1⟩ := rstripL_prefix (rstripCommaL s)
    obtain ⟨w2, hw2⟩ := rstripCommaL_prefix s
    apply hs
    rw [hw2, hw1]
    cases hh : rstripL (rstripCommaL s) with
    | nil => rw [hh] at h0; simp at h0
    | cons a as =>
      rw [hh] at h0
      simp only [List.head?_cons, Option.some.injEq] at h0
      simpa using h0
  intro c hc
  unfold close_json at hc
  dsimp only at hc
  split_ifs at hc with h1 h2 h3
  · rw [List.append_assoc, List.append_assoc] at hc
    exact head_not_space_append ht0 _ (by decide) c hc
  · rw [List.append_assoc] at hc
    exact head_not_space_append ht0 _ (by decide) c hc
  · rw [List.append_assoc] at hc
    exact head_not_space_append ht0 _ (by decide) c hc
  · exact head_not_space_append ht0 _ (by decide) c hc

lemma repair_json_l_getLast (l : List Char) : (repair_json_l l).getLast? = some ']' := by
  unfold repair_json_l
  dsimp only
  split
  · assumption
  · exact close_json_getLast _

lemma repair_json_l_head (l : List Char) :
    ∀ c, (repair_json_l l).head? = some c → isSpaceC c = false := by
  have hs : ∀ c0, (stripL (dropFence (stripL l))).head? = some c0 → isSpaceC c0 = false := by
    intro c0 h0
    unfold stripL lstripL at h0
    exact head?_dropWhile_false isSpaceC _ c0 h0
  intro c hc
  unfold repair_json_l at hc
  dsimp only at hc
  split at hc
  · exact hs c hc
  · exact close_json_head hs c hc

lemma dropFenceF_eq_self : ∀ fuel l, l.length ≤ fuel →
    containsL "```json".data l = false → l.getLast? = some ']' →
    dropFenceF fuel l = l := by
  intro fuel
  induction fuel with
  | zero => intro l _ _ _; rfl
  | succ f ih =>
    intro l hl hcf hlast
    cases l with
    | nil => rfl
    | cons c cs =>
      have hsw : startsWithL "```json".data (c :: cs) = false := by
        revert hcf
        simp only [containsL]
        cases startsWithL "```json".data (c :: cs) <;> simp
      have hsec : ¬((startsWithL "```".data (c :: cs) && allSpace ((c :: cs).drop 3)) = true) := by
        intro hb
        rw [Bool.and_eq_true] at hb
        obtain ⟨hb1, hb2⟩ := hb
        have heq := startsWithL_append _ _ hb1
        rw [show ("```".data).length = 3 from rfl] at heq
        cases hd : (c :: cs).drop 3 with
        | nil =>
          rw [hd] at heq
          rw [heq] at hlast
          exact absurd hlast (by decide)
        | cons a as =>
          rw [hd] at heq hb2
          rw [heq, getLast?_append_right (by simp)] at hlast
          have hmem : ']' ∈ a :: as := mem_of_getLast?_eq hlast
          have := List.all_eq_true.mp hb2 ']' hmem
          exact absurd this (by decide)
      simp only [dropFenceF]
      rw [if_neg (by simp [hsw]), if_neg (by simpa using hsec)]
      cases cs with
      | nil =>
        cases f <;> rfl
      | cons a as =>
        have hcs_last : (a :: as).getLast? = some ']' := by
          rw [← List.getLast?_cons_cons (a := c)]
          exact hlast
        have hcs_cf : containsL "```json".data (a :: as) = false := by
          revert hcf
          simp only [containsL]
          cases containsL "```json".data (a :: as) <;> simp
        have hlen : (a :: as).length ≤ f := by
          simp only [List.length_cons] at hl ⊢
          omega
        exact congrArg (c :: ·) (ih (a :: as) hlen hcs_cf hcs_last)

lemma dropFence_eq_self {l : List Char}
    (hcf : containsL "```json".data l = false) (hlast : l.getLast? = some ']') :
    dropFence l = l :=
  dropFenceF_eq_self l.length l (Nat.le_refl _) hcf hlast

/-! ## C5: repair idempotence -/

/-- C5 (amended): repair is idempotent on every input whose repaired form no
longer contains the json fence opener: such a repaired string is stripped,
fence-free and bracket-terminated, so a second repair returns it unchanged.
The proviso is necessary because deleting a fence can splice the surrounding
text into a new fence that only the second repair removes. -/
theorem repair_json_idempotent (s : String)
    (h : containsL "```json".data (repair_json s).data = false) :
    repair_json (repair_json s) = repair_json s := by
  have hlast : (repair_json s).data.getLast? = some ']' := repair_json_l_getLast s.data
  have hhead : ∀ c, (repair_json s).data.head? = some c → isSpaceC c = false :=
    repair_json_l_head s.data
  have hstrip : stripL (repair_json s).data = (repair_json s).data := by
    cases hh : (repair_json s).data.head? with
    | none =>
      have hnil : (repair_json s).data = [] := by
        cases hx : (repair_json s).data with
        | nil => rfl
        | cons a as => rw [hx] at hh; simp at hh
      rw [hnil] at hlast
      simp at hlast
    | some c =>
      exact stripL_eq_self hh (hhead c hh) hlast (by decide)
  have key : repair_json_l (repair_json s).data = (repair_json s).data := by
    unfold repair_json_l
    dsimp only
    rw [hstrip, dropFence_eq_self h hlast, hstrip, if_pos hlast]
  show String.mk (repair_json_l (repair_json s).data) = repair_json s
  rw [key]

/-- C5 (witness): idempotence on a truncated list that repair closes. -/
theorem repair_json_idempotent_witness :
    repair_json (repair_json "[1,2") = repair_json "[1,2" :=
  repair_json_idempotent "[1,2" (by decide)

set_option maxHeartbeats 2000000

/-- C5 (counterexample): the malformed input below is closed by repair into
valid JSON, yet deleting its fence splices the neighbouring backticks and the
letters json into a new fence, so the repaired text still contains a fence
opener and a second repair removes it: repair of repair differs from repair. -/
theorem repair_json_idempotent_counterexample :
    jsonParses "[\"`````json`json x\"" = false ∧
      jsonParses (repair_json "[\"`````json`json x\"") = true ∧
      repair_json (repair_json "[\"`````json`json x\"") ≠
        repair_json "[\"`````json`json x\"" := by
  refine ⟨by decide, by decide, by decide⟩

/-! ## Lemmas about the extractors -/

lemma splitLines_cons_nl (v : List Char) : splitLines ('\n' :: v) = [] :: splitLines v := by
  simp [splitLines]

lemma splitLines_append_line (u : List Char) (hu : '\n' ∉ u) (v : List Char) :
    splitLines (u ++ '\n' :: v) = u :: splitLines v := by
  induction u with
  | nil => simpa using splitLines_cons_nl v
  | cons c cs ih =>
    have hc : ¬(c = '\n') := fun hh => hu (hh ▸ List.mem_cons_self c cs)
    have hcs : '\n' ∉ cs := fun hh => hu (List.mem_cons_of_mem c hh)
    simp only [List.cons_append, splitLines, if_neg hc, List.append_eq]
    rw [ih hcs]

lemma digitChar_ne_nl (n : Nat) : digitChar n ≠ '\n' := by
  unfold digitChar
  split <;> decide

lemma natReprAux_no_nl : ∀ fuel n c, c ∈ natReprAux fuel n → c ≠ '\n' := by
  intro fuel
  induction fuel with
  | zero => intro n c hc; simp [natReprAux] at hc
  | succ f ih =>
    intro n c hc
    simp only [natReprAux] at hc
    split at hc
    · simp only [List.mem_singleton] at hc
      subst hc
      exact digitChar_ne_nl n
    · rcases List.mem_append.mp hc with hm | hm
      · exact ih _ c hm
      · simp only [List.mem_singleton] at hm
        subst hm
        exact digitChar_ne_nl _

lemma parMarkerLine_no_nl (i : Nat) : '\n' ∉ parMarkerLine i := by
  unfold parMarkerLine
  intro hmem
  rcases List.mem_append.mp hmem with hm | hm
  · rcases List.mem_append.mp hm with hm2 | hm2
    · exact absurd hm2 (by decide)
    · exact natReprAux_no_nl _ _ '\n' hm2 rfl
  · exact absurd hm (by decide)

lemma read_docx_aux_lines (ps : List String) :
    ∀ i, (∀ p ∈ ps, '\n' ∉ p.data) →
      ∀ l ∈ splitLines (read_docx_aux i ps),
        l = [] ∨ (∃ j, l = parMarkerLine j) ∨ ∃ p ∈ ps, l = p.data ∧ stripL p.data ≠ [] := by
  induction ps with
  | nil =>
    intro i _ l hl
    simp only [read_docx_aux, splitLines, List.mem_singleton] at hl
    exact Or.inl hl
  | cons p ps ih =>
    intro i hnl l hl
    have hp : '\n' ∉ p.data := hnl p (List.mem_cons_self p ps)
    have hps : ∀ q ∈ ps, '\n' ∉ q.data := fun q hq => hnl q (List.mem_cons_of_mem p hq)
    have weaken : ∀ l, (l = [] ∨ (∃ j, l = parMarkerLine j) ∨
        ∃ q ∈ ps, l = q.data ∧ stripL q.data ≠ []) →
        l = [] ∨ (∃ j, l = parMarkerLine j) ∨
        ∃ q ∈ p :: ps, l = q.data ∧ stripL q.data ≠ [] := by
      intro l0 h0
      rcases h0 with h0 | h0 | ⟨q, hq, h0⟩
      · exact Or.inl h0
      · exact Or.inr (Or.inl h0)
      · exact Or.inr (Or.inr ⟨q, List.mem_cons_of_mem p hq, h0⟩)
    simp only [read_docx_aux] at hl
    split at hl
    · exact weaken l (ih (i + 1) hps l hl)
    · rename_i hstrip
      split at hl
      · rw [splitLines_cons_nl, splitLines_append_line _ (parMarkerLine_no_nl i),
          splitLines_append_line _ hp] at hl
        rcases List.mem_cons.mp hl with rfl | hl2
        · exact Or.inl rfl
        rcases List.mem_cons.mp hl2 with rfl | hl3
        · exact Or.inr (Or.inl ⟨i, rfl⟩)
        rcases List.mem_cons.mp hl3 with rfl | hl4
        · exact Or.inr (Or.inr ⟨p, List.mem_cons_self p ps, rfl, hstrip⟩)
        · exact weaken l (ih (i + 1) hps l hl4)
      · rw [splitLines_append_line _ hp] at hl
        rcases List.mem_cons.mp hl with rfl | hl2
        · exact Or.inr (Or.inr ⟨p, List.mem_cons_self p ps, rfl, hstrip⟩)
        · exact weaken l (ih (i + 1) hps l hl2)

lemma read_pdf_aux_contains (pgs : List String) :
    ∀ i pg, pg ∈ pgs → pg.data ≠ [] →
      ∃ u v, read_pdf_aux i pgs = u ++ pg.data ++ v := by
  induction pgs with
  | nil => intro i pg hmem; simp at hmem
  | cons p ps ih =>
    intro i pg hmem hne
    rcases List.mem_cons.mp hmem with rfl | hmem2
    · refine ⟨'\n' :: (pageMarkerLine (i + 1) ++ ['\n']), read_pdf_aux (i + 1) ps, ?_⟩
      simp only [read_pdf_aux, if_neg hne]
      simp [List.append_assoc]
    · obtain ⟨u, v, huv⟩ := ih (i + 1) pg hmem2 hne
      simp only [read_pdf_aux]
      split
      · exact ⟨u, v, huv⟩
      · refine ⟨'\n' :: (pageMarkerLine (i + 1) ++ '\n' :: p.data) ++ u, v, ?_⟩
        rw [huv]
        simp [List.append_assoc]

/-! ## C8: blank-line handling of the extractors -/

/-- C8 (amended): the flat document path drops whitespace-only paragraphs, so
every line of its output is an empty separator line, a position marker line,
or the verbatim text of a paragraph that is not whitespace-only; the
paginated path, in contrast, only skips pages whose whole extracted text is
empty and copies a nonempty page text verbatim, blank lines included. -/
theorem extractor_blank_lines :
    (∀ paragraphs : List String, (∀ p ∈ paragraphs, '\n' ∉ p.data) →
      ∀ l ∈ splitLines (read_docx paragraphs).data,
        l = [] ∨ (∃ j, l = parMarkerLine j) ∨
          ∃ p ∈ paragraphs, l = p.data ∧ stripL p.data ≠ []) ∧
    (∀ pages : List String, ∀ pg ∈ pages, pg.data ≠ [] →
      ∃ u v, (read_pdf_with_pages pages).data = u ++ pg.data ++ v) := by
  constructor
  · intro paragraphs hnl l hl
    exact read_docx_aux_lines paragraphs 0 hnl l hl
  · intro pages pg hmem hne
    exact read_pdf_aux_contains pages 0 pg hmem hne

/-- C8 (witness): the two parts instantiated on concrete documents. -/
theorem extractor_blank_lines_witness :
    ("ola".data = [] ∨ (∃ j, "ola".data = parMarkerLine j) ∨
      ∃ p ∈ ["ola"], "ola".data = p.data ∧ stripL p.data ≠ []) ∧
    (∃ u v, (read_pdf_with_pages ["abc"]).data = u ++ "abc".data ++ v) :=
  ⟨extractor_blank_lines.1 ["ola"] (by decide) "ola".data (by decide),
    extractor_blank_lines.2 ["abc"] "abc" (by decide) (by decide)⟩

/-- C8 (counterexample): a page whose extracted text contains a blank line
between two content lines is copied verbatim by the paginated path, so the
annotated text contains a whitespace-only content line, contradicting the
claim that both paths drop all such lines. -/
theorem extractor_blank_lines_counterexample :
    ∃ l ∈ splitLines (read_pdf_with_pages ["a\n\nb"]).data,
      isMarkerLine l = false ∧ stripL l = [] := by
  decide

/-! ## C6: minimum-length validation -/

/-- C6: the run fails before any review call exactly when the extracted text
is shorter than 50 characters; with 50 or more characters it proceeds to
chunking with the budget 12000. -/
theorem extraction_length_gate (full_text : String) :
    (main_validation full_text = Except.error "Texto demasiado curto ou ilegível." ↔
      full_text.length < 50) ∧
    (50 ≤ full_text.length →
      main_validation full_text = Except.ok (split_text_into_chunks full_text 12000)) := by
  constructor
  · constructor
    · intro h
      by_contra hlen
      unfold main_validation at h
      rw [if_neg hlen] at h
      exact absurd h (by simp)
    · intro h
      unfold main_validation
      rw [if_pos h]
  · intro h
    unfold main_validation
    rw [if_neg (by omega)]

/-- C6 (witness): a fifty-character text passes validation and is chunked. -/
theorem extraction_length_gate_witness :
    main_validation "aaaaaaaaaaaaaaaaaaaaaaaaaaaaaaaaaaaaaaaaaaaaaaaaaa" =
      Except.ok
        (split_text_into_chunks "aaaaaaaaaaaaaaaaaaaaaaaaaaaaaaaaaaaaaaaaaaaaaaaaaa" 12000) :=
  (extraction_length_gate _).2 (by decide)

/-! ## C7: per-chunk failure isolation -/

/-- C7: the loop aggregates the findings of all chunks in chunk order,
processing every chunk, and a chunk whose review call fails or whose
repaired response does not parse contributes no findings while recording a
warning or log event; no failure aborts the loop. -/
theorem chunk_failures_isolated (review : String → String) (chunks : List String) :
    (run_review_loop review chunks).1 =
      (chunks.map (fun c => (process_chunk (review c)).1)).flatten ∧
    ∀ c ∈ chunks,
      (startsWithL "ERROR".data (review c).data = true ∨
        json_loads (repair_json (review c)) = none) →
      (process_chunk (review c)).1 = [] ∧ (process_chunk (review c)).2 ≠ none := by
  constructor
  · induction chunks with
    | nil => rfl
    | cons c cs ih =>
      simp only [run_review_loop, List.map_cons, List.flatten_cons]
      rw [ih]
  · intro c _ hfail
    unfold process_chunk
    rcases hfail with h | h
    · rw [if_pos (by simp [h])]
      exact ⟨rfl, by simp⟩
    · by_cases hb : startsWithL "ERROR".data (review c).data = true
      · rw [if_pos (by simp [hb])]
        exact ⟨rfl, by simp⟩
      · rw [if_neg (by simp [hb]), h]
        exact ⟨rfl, by simp⟩

/-- C7 (witness): a failing review call on a concrete chunk yields no
findings and a recorded event. -/
theorem chunk_failures_isolated_witness :
    (process_chunk ((fun _ => "ERROR: boom") "c")).1 = [] ∧
      (process_chunk ((fun _ => "ERROR: boom") "c")).2 ≠ none :=
  (chunk_failures_isolated (fun _ => "ERROR: boom") ["c"]).2 "c" (by decide)
    (Or.inl (by decide))

/-! ## C10: silent discard of non-list parses -/

/-- C10: when the repaired response of a non-failing call parses, the chunk
contributes the normalised findings with no warning or log event, and a
parsed value that is neither an object nor a list normalises to nothing: it
is silently discarded. -/
theorem nonlist_response_discarded (raw_resp : String) (v : Jval)
    (h1 : startsWithL "ERROR".data raw_resp.data = false)
    (h2 : json_loads (repair_json raw_resp) = some v) :
    process_chunk raw_resp = (normalizeParsed v, none) ∧
      (isObjJ v = false → isArrJ v = false → normalizeParsed v = []) := by
  constructor
  · unfold process_chunk
    rw [if_neg (by simp [h1]), h2]
  · intro ho ha
    cases v <;> simp_all [normalizeParsed, isObjJ, isArrJ]

/-- C10 (witness): a response parsing to the empty list is kept with no
event. -/
theorem nonlist_response_discarded_witness :
    process_chunk "[]" = (normalizeParsed (Jval.arr []), none) ∧
      (isObjJ (Jval.arr []) = false → isArrJ (Jval.arr []) = false →
        normalizeParsed (Jval.arr []) = []) :=
  nonlist_response_discarded "[]" (Jval.arr []) (by decide) (by rfl)

end PTF
